import Mathlib

/-!
Shallow embedding of the llrs stack-machine repository (src/main.rs):
a 9-opcode bytecode instruction set, a textual assembler, and a
fetch-decode-execute virtual machine over an 8-bit operand stack.

Conventions of the embedding:
* `u8` values are `Nat`s; wrapping arithmetic is explicit `% 256`
  (for subtraction, `(a + 256 - b) % 256`, the two's-complement value
  when both operands are below 256, as all machine bytes are).
* The Rust `Vec<u8>` operand stack pushes and pops at the tail; here the
  stack is a `List Nat` with the TOP at the HEAD, so `push` is `cons`
  and `pop` inspects the head.
* Rust `panic!`/`expect` failures become an explicit `Fault` carried in
  a `StepResult`, together with the machine state as it is at the moment
  the panic fires (pops already performed by the failing instruction have
  happened; the failing access itself has not mutated anything).
* `println!` output is modelled by an `output` list appended to by
  `print`/`print_top`, ordered as emitted.
-/

/-- The instruction set: `enum Op` of src/main.rs. -/
inductive Op where
  | push (value : Nat)
  | add
  | sub
  | mul
  | print
  | printTop
  | dup
  | swap
  | dropOp
deriving DecidableEq, Repr

/-- Rust `Op::opcode`: the fixed 1-byte identifier of each variant. -/
def Op.opcode : Op → Nat
  | .push _ => 0x01
  | .add => 0x02
  | .sub => 0x03
  | .mul => 0x04
  | .print => 0x05
  | .printTop => 0x06
  | .dup => 0x07
  | .swap => 0x08
  | .dropOp => 0x09

/-- Rust `Op::to_bytecode`: `Push v` encodes as `[opcode, v]`, everything else as `[opcode]`. -/
def Op.to_bytecode : Op → List Nat
  | .push value => [Op.opcode (.push value), value]
  | op => [op.opcode]

/-- One decimal digit, as in Rust integer parsing (ASCII `0..9` only). -/
def digitVal (c : Char) : Option Nat :=
  if '0' ≤ c ∧ c ≤ '9' then some (c.toNat - '0'.toNat) else none

/-- Accumulating loop of `u8::from_str`: consume decimal digits, failing on a
non-digit or when the accumulated value leaves the `u8` range. -/
def parseU8Digits : List Char → Nat → Option Nat
  | [], acc => some acc
  | c :: cs, acc =>
    match digitVal c with
    | none => none
    | some d =>
      if acc * 10 + d < 256 then parseU8Digits cs (acc * 10 + d) else none

/-- Rust `str::parse::<u8>`: an optional leading `+`, then one or more ASCII
decimal digits, value in `[0, 255]`; anything else is an error. -/
def parseU8 (s : String) : Option Nat :=
  match s.toList with
  | [] => none
  | '+' :: rest => if rest.isEmpty then none else parseU8Digits rest 0
  | cs => parseU8Digits cs 0

/-- Rust `Op::from_parts`: match the whitespace-split tokens of a line against the
nine mnemonic forms; `none` models the `panic!` on an unknown or malformed
instruction (including a `PUSH` operand that fails to parse as a `u8`). -/
def Op.from_parts (parts : List String) : Option Op :=
  match parts with
  | ["PUSH", value] => (parseU8 value).map Op.push
  | ["ADD"] => some .add
  | ["SUB"] => some .sub
  | ["MUL"] => some .mul
  | ["PRINT"] => some .print
  | ["PRINT_TOP"] => some .printTop
  | ["DUP"] => some .dup
  | ["SWAP"] => some .swap
  | ["DROP"] => some .dropOp
  | _ => none

/-- The three execution faults of the interpreter: the `expect("Stack underflow")`
panics, the `panic!("Unknown opcode")` branch, and the out-of-bounds program
read of a `Push` missing its operand byte. -/
inductive Fault where
  | stackUnderflow
  | illegalOpcode (b : Nat)
  | truncatedProgram
deriving DecidableEq, Repr

/-- Rust `struct VM` of src/main.rs, extended with the `output` observation channel
fed by `println!`. The stack's top element is the list head. -/
structure VM where
  stack : List Nat
  ip : Nat
  program : List Nat
  output : List Nat
deriving DecidableEq, Repr

/-- Outcome of executing one instruction (or a whole run): either the machine
state after success, or a fault together with the machine state at the moment
the panic fires. -/
inductive StepResult where
  | ok (vm : VM)
  | fault (f : Fault) (vm : VM)
deriving DecidableEq, Repr

/-- Rust `VM::new`: empty stack, ip 0, given program, nothing printed yet. -/
def VM.new (program : List Nat) : VM :=
  { stack := [], ip := 0, program := program, output := [] }

/-- Rust `VM::push`: read the operand byte at `ip`, advance `ip`, push it; an
out-of-bounds read is the truncated-program panic. -/
def VM.push (vm : VM) : StepResult :=
  match vm.program.get? vm.ip with
  | some value => .ok { vm with ip := vm.ip + 1, stack := value :: vm.stack }
  | none => .fault .truncatedProgram vm

/-- Rust `VM::add`: pop `b`, pop `a`, push `a.wrapping_add(b)`. The first `pop`
commits before the second is attempted, as in the source. -/
def VM.add (vm : VM) : StepResult :=
  match vm.stack with
  | [] => .fault .stackUnderflow vm
  | b :: s1 =>
    match s1 with
    | [] => .fault .stackUnderflow { vm with stack := s1 }
    | a :: s2 => .ok { vm with stack := ((a + b) % 256) :: s2 }

/-- Rust `VM::sub`: pop `b`, pop `a`, push `a.wrapping_sub(b)` (two's-complement
subtraction on bytes, written `(a + 256 - b) % 256` on `Nat`). -/
def VM.sub (vm : VM) : StepResult :=
  match vm.stack with
  | [] => .fault .stackUnderflow vm
  | b :: s1 =>
    match s1 with
    | [] => .fault .stackUnderflow { vm with stack := s1 }
    | a :: s2 => .ok { vm with stack := ((a + 256 - b) % 256) :: s2 }

/-- Rust `VM::mul`: pop `b`, pop `a`, push `a.wrapping_mul(b)`. -/
def VM.mul (vm : VM) : StepResult :=
  match vm.stack with
  | [] => .fault .stackUnderflow vm
  | b :: s1 =>
    match s1 with
    | [] => .fault .stackUnderflow { vm with stack := s1 }
    | a :: s2 => .ok { vm with stack := ((a * b) % 256) :: s2 }

/-- Rust `VM::print`: pop the top value and emit it. -/
def VM.print (vm : VM) : StepResult :=
  match vm.stack with
  | [] => .fault .stackUnderflow vm
  | value :: s1 => .ok { vm with stack := s1, output := vm.output ++ [value] }

/-- Rust `VM::print_top`: emit the top value without popping. -/
def VM.print_top (vm : VM) : StepResult :=
  match vm.stack with
  | [] => .fault .stackUnderflow vm
  | value :: _ => .ok { vm with output := vm.output ++ [value] }

/-- Rust `VM::dup`: push a copy of the top value. -/
def VM.dup (vm : VM) : StepResult :=
  match vm.stack with
  | [] => .fault .stackUnderflow vm
  | value :: _ => .ok { vm with stack := value :: vm.stack }

/-- Rust `VM::swap`: pop `b`, pop `a`, push `b`, push `a`. -/
def VM.swap (vm : VM) : StepResult :=
  match vm.stack with
  | [] => .fault .stackUnderflow vm
  | b :: s1 =>
    match s1 with
    | [] => .fault .stackUnderflow { vm with stack := s1 }
    | a :: s2 => .ok { vm with stack := a :: b :: s2 }

/-- Rust `VM::drop`: pop and discard the top value. -/
def VM.dropInstr (vm : VM) : StepResult :=
  match vm.stack with
  | [] => .fault .stackUnderflow vm
  | _ :: s1 => .ok { vm with stack := s1 }

/-- The `match opcode` arm of `VM::run_instruction`, acting on the machine
state as it is after the `self.ip += 1` increment. A byte outside
`0x01..0x09` is the unknown-opcode panic. -/
def VM.dispatch (vm : VM) (opcode : Nat) : StepResult :=
  if opcode = 0x01 then vm.push
  else if opcode = 0x02 then vm.add
  else if opcode = 0x03 then vm.sub
  else if opcode = 0x04 then vm.mul
  else if opcode = 0x05 then vm.print
  else if opcode = 0x06 then vm.print_top
  else if opcode = 0x07 then vm.dup
  else if opcode = 0x08 then vm.swap
  else if opcode = 0x09 then vm.dropInstr
  else .fault (.illegalOpcode opcode) vm

/-- Rust `VM::run_instruction`: fetch the opcode at `ip`, advance `ip`, dispatch.
(`run` only calls this with `ip` in bounds; the `none` case is unreachable
from `run`.) -/
def VM.run_instruction (vm : VM) : StepResult :=
  match vm.program.get? vm.ip with
  | none => .fault .truncatedProgram vm
  | some opcode => VM.dispatch { vm with ip := vm.ip + 1 } opcode

/-- Fuel-indexed unfolding of `VM::run`'s `while self.ip < self.program.len()`
loop. The fuel only bounds the number of iterations; `VM.run` supplies enough
fuel for the loop to reach its exit condition, and when the fuel is exhausted
the fallback agrees with the loop's exit (see `VM.runFuel_fuel_irrelevant`). -/
def VM.runFuel : Nat → VM → StepResult
  | 0, vm => .ok vm
  | fuel + 1, vm =>
    if vm.ip < vm.program.length then
      match vm.run_instruction with
      | .ok vm2 => VM.runFuel fuel vm2
      | .fault f vmf => .fault f vmf
    else .ok vm

/-- Rust `VM::run`: execute instructions until `ip` reaches the program length or a
fault stops the machine. -/
def VM.run (vm : VM) : StepResult :=
  VM.runFuel (vm.program.length - vm.ip) vm

/-- One successful iteration of the `while` loop of `VM::run`, viewed as a
transition relation between machine states: the loop guard holds and the
instruction completes without fault. -/
def StepOk (vm vm' : VM) : Prop :=
  vm.ip < vm.program.length ∧ vm.run_instruction = .ok vm'

/-- Unicode `White_Space`, the character class used by Rust's
`str::split_whitespace`. -/
def rustIsWhitespace (c : Char) : Bool :=
  (9 ≤ c.toNat && c.toNat ≤ 13) || c.toNat = 32 || c.toNat = 0x85 ||
  c.toNat = 0xA0 || c.toNat = 0x1680 ||
  (0x2000 ≤ c.toNat && c.toNat ≤ 0x200A) ||
  c.toNat = 0x2028 || c.toNat = 0x2029 || c.toNat = 0x202F ||
  c.toNat = 0x205F || c.toNat = 0x3000

/-- Worker for `str::split_whitespace`: `cur` holds the characters of the token
in progress, in reverse. -/
def splitWhitespaceAux : List Char → List Char → List String
  | [], cur => if cur.isEmpty then [] else [String.mk cur.reverse]
  | c :: cs, cur =>
    if rustIsWhitespace c then
      if cur.isEmpty then splitWhitespaceAux cs []
      else String.mk cur.reverse :: splitWhitespaceAux cs []
    else splitWhitespaceAux cs (c :: cur)

/-- Rust `str::split_whitespace`: the maximal whitespace-free tokens of a line,
in order; a line of only whitespace has no tokens. -/
def split_whitespace (line : List Char) : List String :=
  splitWhitespaceAux line []

/-- Split a character sequence at every newline, keeping empty pieces
(`n` newlines give `n + 1` pieces). -/
def splitNewlines : List Char → List (List Char)
  | [] => [[]]
  | c :: cs =>
    if c = '\n' then [] :: splitNewlines cs
    else
      match splitNewlines cs with
      | p :: ps => (c :: p) :: ps
      | [] => [[c]]

/-- Remove one trailing carriage return, as Rust `str::lines` does per line. -/
def stripCR (l : List Char) : List Char :=
  if l.getLast? = some '\r' then l.dropLast else l

/-- Rust `str::lines`: split on `'\n'`, drop the empty piece a trailing newline
leaves behind, strip one trailing `'\r'` from each line. -/
def rustLines (cs : List Char) : List (List Char) :=
  let pieces := splitNewlines cs
  (if pieces.getLast? = some [] then pieces.dropLast else pieces).map stripCR

/-- Rust `assemble_line`: tokenize the line; a token-free line contributes nothing
(the `ControlFlow::Break` path); otherwise parse the tokens and yield the
operation's encoding. `none` models the translation panic. -/
def assemble_line (line : List Char) : Option (List Nat) :=
  let parts := split_whitespace line
  if parts.isEmpty then some []
  else (Op.from_parts parts).map Op.to_bytecode

/-- The line loop of `assemble`: concatenate each line's bytes in order,
failing on the first malformed line. -/
def assembleLines : List (List Char) → Option (List Nat)
  | [] => some []
  | l :: ls =>
    match assemble_line l with
    | none => none
    | some bs => (assembleLines ls).map (fun rest => bs ++ rest)

/-- Rust `assemble`: translate a whole source text to bytecode, line by line. -/
def assemble (source : String) : Option (List Nat) :=
  assembleLines (rustLines source.toList)

/-- A successful `VM::push` read the operand byte at `ip` in bounds, advanced
`ip` by one, and pushed that byte. -/
theorem VM.push_ok_facts (w v : VM) (h : w.push = .ok v) :
    v.program = w.program ∧ v.output = w.output ∧ v.ip = w.ip + 1 ∧
      w.ip < w.program.length ∧
      ∃ x, w.program.get? w.ip = some x ∧ v.stack = x :: w.stack := by
  unfold VM.push at h
  rcases hget : w.program.get? w.ip with _ | x <;> rw [hget] at h
  · exact absurd h (by simp)
  · have hlt : w.ip < w.program.length := by
      by_contra hc
      rw [List.get?_eq_none.mpr (Nat.le_of_not_lt hc)] at hget
      exact Option.noConfusion hget
    cases h
    exact ⟨rfl, rfl, rfl, hlt, x, rfl, rfl⟩

/-- A failed `VM::push` is the truncated-program fault, with the whole machine
state untouched. -/
theorem VM.push_fault_facts (w v : VM) (f : Fault) (h : w.push = .fault f v) :
    f = .truncatedProgram ∧ v = w ∧ w.program.length ≤ w.ip := by
  unfold VM.push at h
  rcases hget : w.program.get? w.ip with _ | x <;> rw [hget] at h
  · cases h
    exact ⟨rfl, rfl, List.get?_eq_none.mp hget⟩
  · exact absurd h (by simp)

/-- A successful binary operation (`add`/`sub`/`mul`/`swap`) leaves `ip`,
`program` and `output` untouched and only reshapes the stack. -/
theorem VM.add_ok_facts (w v : VM) (h : w.add = .ok v) :
    v.program = w.program ∧ v.ip = w.ip ∧ v.output = w.output := by
  unfold VM.add at h
  rcases hs : w.stack with _ | ⟨b, _ | ⟨a, s2⟩⟩ <;> rw [hs] at h
  · exact absurd h (by simp)
  · exact absurd h (by simp)
  · cases h
    exact ⟨rfl, rfl, rfl⟩

/-- See `VM.add_ok_facts`. -/
theorem VM.sub_ok_facts (w v : VM) (h : w.sub = .ok v) :
    v.program = w.program ∧ v.ip = w.ip ∧ v.output = w.output := by
  unfold VM.sub at h
  rcases hs : w.stack with _ | ⟨b, _ | ⟨a, s2⟩⟩ <;> rw [hs] at h
  · exact absurd h (by simp)
  · exact absurd h (by simp)
  · cases h
    exact ⟨rfl, rfl, rfl⟩

/-- See `VM.add_ok_facts`. -/
theorem VM.mul_ok_facts (w v : VM) (h : w.mul = .ok v) :
    v.program = w.program ∧ v.ip = w.ip ∧ v.output = w.output := by
  unfold VM.mul at h
  rcases hs : w.stack with _ | ⟨b, _ | ⟨a, s2⟩⟩ <;> rw [hs] at h
  · exact absurd h (by simp)
  · exact absurd h (by simp)
  · cases h
    exact ⟨rfl, rfl, rfl⟩

/-- See `VM.add_ok_facts`. -/
theorem VM.swap_ok_facts (w v : VM) (h : w.swap = .ok v) :
    v.program = w.program ∧ v.ip = w.ip ∧ v.output = w.output := by
  unfold VM.swap at h
  rcases hs : w.stack with _ | ⟨b, _ | ⟨a, s2⟩⟩ <;> rw [hs] at h
  · exact absurd h (by simp)
  · exact absurd h (by simp)
  · cases h
    exact ⟨rfl, rfl, rfl⟩

/-- A faulting binary operation is a stack underflow; `ip`, `program` and
`output` are untouched, and the stack at the fault is the original stack with
the pops already performed removed (none on an empty stack, one on a
singleton); a stack of depth at most 1 is empty at the fault. -/
theorem VM.add_fault_facts (w v : VM) (f : Fault) (h : w.add = .fault f v) :
    f = .stackUnderflow ∧ v.program = w.program ∧ v.ip = w.ip ∧
      v.output = w.output ∧ (∃ k, k ≤ 1 ∧ v.stack = w.stack.drop k) ∧
      (w.stack.length ≤ 1 → v.stack = []) := by
  unfold VM.add at h
  rcases hs : w.stack with _ | ⟨b, _ | ⟨a, s2⟩⟩ <;> rw [hs] at h
  · cases h
    exact ⟨rfl, rfl, rfl, rfl, ⟨0, by omega, by simp [hs]⟩, fun _ => by simp [hs]⟩
  · cases h
    exact ⟨rfl, rfl, rfl, rfl, ⟨1, by omega, by simp [hs]⟩, fun _ => by simp [hs]⟩
  · exact absurd h (by simp)

/-- See `VM.add_fault_facts`. -/
theorem VM.sub_fault_facts (w v : VM) (f : Fault) (h : w.sub = .fault f v) :
    f = .stackUnderflow ∧ v.program = w.program ∧ v.ip = w.ip ∧
      v.output = w.output ∧ (∃ k, k ≤ 1 ∧ v.stack = w.stack.drop k) ∧
      (w.stack.length ≤ 1 → v.stack = []) := by
  unfold VM.sub at h
  rcases hs : w.stack with _ | ⟨b, _ | ⟨a, s2⟩⟩ <;> rw [hs] at h
  · cases h
    exact ⟨rfl, rfl, rfl, rfl, ⟨0, by omega, by simp [hs]⟩, fun _ => by simp [hs]⟩
  · cases h
    exact ⟨rfl, rfl, rfl, rfl, ⟨1, by omega, by simp [hs]⟩, fun _ => by simp [hs]⟩
  · exact absurd h (by simp)

/-- See `VM.add_fault_facts`. -/
theorem VM.mul_fault_facts (w v : VM) (f : Fault) (h : w.mul = .fault f v) :
    f = .stackUnderflow ∧ v.program = w.program ∧ v.ip = w.ip ∧
      v.output = w.output ∧ (∃ k, k ≤ 1 ∧ v.stack = w.stack.drop k) ∧
      (w.stack.length ≤ 1 → v.stack = []) := by
  unfold VM.mul at h
  rcases hs : w.stack with _ | ⟨b, _ | ⟨a, s2⟩⟩ <;> rw [hs] at h
  · cases h
    exact ⟨rfl, rfl, rfl, rfl, ⟨0, by omega, by simp [hs]⟩, fun _ => by simp [hs]⟩
  · cases h
    exact ⟨rfl, rfl, rfl, rfl, ⟨1, by omega, by simp [hs]⟩, fun _ => by simp [hs]⟩
  · exact absurd h (by simp)

/-- See `VM.add_fault_facts`. -/
theorem VM.swap_fault_facts (w v : VM) (f : Fault) (h : w.swap = .fault f v) :
    f = .stackUnderflow ∧ v.program = w.program ∧ v.ip = w.ip ∧
      v.output = w.output ∧ (∃ k, k ≤ 1 ∧ v.stack = w.stack.drop k) ∧
      (w.stack.length ≤ 1 → v.stack = []) := by
  unfold VM.swap at h
  rcases hs : w.stack with _ | ⟨b, _ | ⟨a, s2⟩⟩ <;> rw [hs] at h
  · cases h
    exact ⟨rfl, rfl, rfl, rfl, ⟨0, by omega, by simp [hs]⟩, fun _ => by simp [hs]⟩
  · cases h
    exact ⟨rfl, rfl, rfl, rfl, ⟨1, by omega, by simp [hs]⟩, fun _ => by simp [hs]⟩
  · exact absurd h (by simp)

/-- A successful unary operation keeps `ip` and `program` untouched. -/
theorem VM.print_ok_facts (w v : VM) (h : w.print = .ok v) :
    v.program = w.program ∧ v.ip = w.ip := by
  unfold VM.print at h
  rcases hs : w.stack with _ | ⟨x, s1⟩ <;> rw [hs] at h
  · exact absurd h (by simp)
  · cases h
    exact ⟨rfl, rfl⟩

/-- See `VM.print_ok_facts`. -/
theorem VM.print_top_ok_facts (w v : VM) (h : w.print_top = .ok v) :
    v.program = w.program ∧ v.ip = w.ip := by
  unfold VM.print_top at h
  rcases hs : w.stack with _ | ⟨x, s1⟩ <;> rw [hs] at h
  · exact absurd h (by simp)
  · cases h
    exact ⟨rfl, rfl⟩

/-- See `VM.print_ok_facts`. -/
theorem VM.dup_ok_facts (w v : VM) (h : w.dup = .ok v) :
    v.program = w.program ∧ v.ip = w.ip := by
  unfold VM.dup at h
  rcases hs : w.stack with _ | ⟨x, s1⟩ <;> rw [hs] at h
  · exact absurd h (by simp)
  · cases h
    exact ⟨rfl, rfl⟩

/-- See `VM.print_ok_facts`. -/
theorem VM.dropInstr_ok_facts (w v : VM) (h : w.dropInstr = .ok v) :
    v.program = w.program ∧ v.ip = w.ip := by
  unfold VM.dropInstr at h
  rcases hs : w.stack with _ | ⟨x, s1⟩ <;> rw [hs] at h
  · exact absurd h (by simp)
  · cases h
    exact ⟨rfl, rfl⟩

/-- A faulting unary operation is a stack underflow on the empty stack, with
the machine state entirely untouched. -/
theorem VM.print_fault_facts (w v : VM) (f : Fault) (h : w.print = .fault f v) :
    f = .stackUnderflow ∧ v = w ∧ w.stack = [] := by
  unfold VM.print at h
  rcases hs : w.stack with _ | ⟨x, s1⟩ <;> rw [hs] at h
  · cases h
    exact ⟨rfl, rfl, by simp [hs]⟩
  · exact absurd h (by simp)

/-- See `VM.print_fault_facts`. -/
theorem VM.print_top_fault_facts (w v : VM) (f : Fault)
    (h : w.print_top = .fault f v) :
    f = .stackUnderflow ∧ v = w ∧ w.stack = [] := by
  unfold VM.print_top at h
  rcases hs : w.stack with _ | ⟨x, s1⟩ <;> rw [hs] at h
  · cases h
    exact ⟨rfl, rfl, by simp [hs]⟩
  · exact absurd h (by simp)

/-- See `VM.print_fault_facts`. -/
theorem VM.dup_fault_facts (w v : VM) (f : Fault) (h : w.dup = .fault f v) :
    f = .stackUnderflow ∧ v = w ∧ w.stack = [] := by
  unfold VM.dup at h
  rcases hs : w.stack with _ | ⟨x, s1⟩ <;> rw [hs] at h
  · cases h
    exact ⟨rfl, rfl, by simp [hs]⟩
  · exact absurd h (by simp)

/-- See `VM.print_fault_facts`. -/
theorem VM.dropInstr_fault_facts (w v : VM) (f : Fault)
    (h : w.dropInstr = .fault f v) :
    f = .stackUnderflow ∧ v = w ∧ w.stack = [] := by
  unfold VM.dropInstr at h
  rcases hs : w.stack with _ | ⟨x, s1⟩ <;> rw [hs] at h
  · cases h
    exact ⟨rfl, rfl, by simp [hs]⟩
  · exact absurd h (by simp)

/-- Dispatch of a byte outside `0x01..0x09`: the unknown-opcode panic with the
machine state untouched. -/
theorem VM.dispatch_out_of_range (w : VM) (b : Nat) (h : b = 0 ∨ 10 ≤ b) :
    VM.dispatch w b = .fault (.illegalOpcode b) w := by
  unfold VM.dispatch
  iterate 9 rw [if_neg (by omega)]

/-- A successful dispatch means the opcode byte was one of `0x01..0x09`; the
program is untouched, and `ip` advanced by one more step exactly for a `Push`
(whose operand read was in bounds) and stayed put otherwise. -/
theorem VM.dispatch_ok_anatomy (w v : VM) (b : Nat) (h : VM.dispatch w b = .ok v) :
    1 ≤ b ∧ b ≤ 9 ∧ v.program = w.program ∧
      (b = 1 → v.ip = w.ip + 1 ∧ w.ip < w.program.length) ∧
      (b ≠ 1 → v.ip = w.ip) := by
  rcases b with _ | _ | _ | _ | _ | _ | _ | _ | _ | _ | n
  · rw [VM.dispatch_out_of_range w _ (by omega)] at h
    cases h
  · obtain ⟨hp, _, hip, hlt, _⟩ := VM.push_ok_facts w v h
    exact ⟨by omega, by omega, hp, fun _ => ⟨hip, hlt⟩, fun hc => absurd rfl hc⟩
  · obtain ⟨hp, hip, _⟩ := VM.add_ok_facts w v h
    exact ⟨by omega, by omega, hp, fun hc => absurd hc (by omega), fun _ => hip⟩
  · obtain ⟨hp, hip, _⟩ := VM.sub_ok_facts w v h
    exact ⟨by omega, by omega, hp, fun hc => absurd hc (by omega), fun _ => hip⟩
  · obtain ⟨hp, hip, _⟩ := VM.mul_ok_facts w v h
    exact ⟨by omega, by omega, hp, fun hc => absurd hc (by omega), fun _ => hip⟩
  · obtain ⟨hp, hip⟩ := VM.print_ok_facts w v h
    exact ⟨by omega, by omega, hp, fun hc => absurd hc (by omega), fun _ => hip⟩
  · obtain ⟨hp, hip⟩ := VM.print_top_ok_facts w v h
    exact ⟨by omega, by omega, hp, fun hc => absurd hc (by omega), fun _ => hip⟩
  · obtain ⟨hp, hip⟩ := VM.dup_ok_facts w v h
    exact ⟨by omega, by omega, hp, fun hc => absurd hc (by omega), fun _ => hip⟩
  · obtain ⟨hp, hip, _⟩ := VM.swap_ok_facts w v h
    exact ⟨by omega, by omega, hp, fun hc => absurd hc (by omega), fun _ => hip⟩
  · obtain ⟨hp, hip⟩ := VM.dropInstr_ok_facts w v h
    exact ⟨by omega, by omega, hp, fun hc => absurd hc (by omega), fun _ => hip⟩
  · rw [VM.dispatch_out_of_range w _ (by omega)] at h
    cases h

/-- A faulting dispatch leaves `ip`, `program` and `output` untouched; the
stack at the fault is the original stack minus the pops already performed (at
most one). A byte in `0x02..0x04` or `0x08` on a stack of depth at most 1
underflows with the stack emptied; `0x01` can only fault on a truncated
operand read, leaving the state untouched; bytes `0x02..0x09` can only
underflow; a byte outside `0x01..0x09` is the illegal-opcode fault with the
state untouched. -/
theorem VM.dispatch_fault_anatomy (w v : VM) (b : Nat) (f : Fault)
    (h : VM.dispatch w b = .fault f v) :
    v.program = w.program ∧ v.output = w.output ∧ v.ip = w.ip ∧
      (∃ k, k ≤ 1 ∧ v.stack = w.stack.drop k) ∧
      ((b = 2 ∨ b = 3 ∨ b = 4 ∨ b = 8) → w.stack.length ≤ 1 → v.stack = []) ∧
      (b = 1 → f = .truncatedProgram ∧ v = w ∧ w.program.length ≤ w.ip) ∧
      (2 ≤ b → b ≤ 9 → f = .stackUnderflow) ∧
      ((b = 0 ∨ 10 ≤ b) → f = .illegalOpcode b ∧ v = w) := by
  rcases b with _ | _ | _ | _ | _ | _ | _ | _ | _ | _ | n
  · rw [VM.dispatch_out_of_range w _ (by omega)] at h
    cases h
    exact ⟨rfl, rfl, rfl, ⟨0, by omega, by simp⟩, by omega, by omega, by omega,
      fun _ => ⟨rfl, rfl⟩⟩
  · obtain ⟨hf, hv, hlen⟩ := VM.push_fault_facts w v f h
    subst hv
    exact ⟨rfl, rfl, rfl, ⟨0, by omega, by simp⟩, by omega,
      fun _ => ⟨hf, rfl, hlen⟩, by omega, by omega⟩
  · obtain ⟨hf, hp, hip, ho, hk, h1⟩ := VM.add_fault_facts w v f h
    exact ⟨hp, ho, hip, hk, fun _ => h1, by omega, fun _ _ => hf, by omega⟩
  · obtain ⟨hf, hp, hip, ho, hk, h1⟩ := VM.sub_fault_facts w v f h
    exact ⟨hp, ho, hip, hk, fun _ => h1, by omega, fun _ _ => hf, by omega⟩
  · obtain ⟨hf, hp, hip, ho, hk, h1⟩ := VM.mul_fault_facts w v f h
    exact ⟨hp, ho, hip, hk, fun _ => h1, by omega, fun _ _ => hf, by omega⟩
  · obtain ⟨hf, hv, hs⟩ := VM.print_fault_facts w v f h
    subst hv
    exact ⟨rfl, rfl, rfl, ⟨0, by omega, by simp⟩, by omega, by omega,
      fun _ _ => hf, by omega⟩
  · obtain ⟨hf, hv, hs⟩ := VM.print_top_fault_facts w v f h
    subst hv
    exact ⟨rfl, rfl, rfl, ⟨0, by omega, by simp⟩, by omega, by omega,
      fun _ _ => hf, by omega⟩
  · obtain ⟨hf, hv, hs⟩ := VM.dup_fault_facts w v f h
    subst hv
    exact ⟨rfl, rfl, rfl, ⟨0, by omega, by simp⟩, by omega, by omega,
      fun _ _ => hf, by omega⟩
  · obtain ⟨hf, hp, hip, ho, hk, h1⟩ := VM.swap_fault_facts w v f h
    exact ⟨hp, ho, hip, hk, fun _ => h1, by omega, fun _ _ => hf, by omega⟩
  · obtain ⟨hf, hv, hs⟩ := VM.dropInstr_fault_facts w v f h
    subst hv
    exact ⟨rfl, rfl, rfl, ⟨0, by omega, by simp⟩, by omega, by omega,
      fun _ _ => hf, by omega⟩
  · rw [VM.dispatch_out_of_range w _ (by omega)] at h
    cases h
    exact ⟨rfl, rfl, rfl, ⟨0, by omega, by simp⟩, by omega, by omega, by omega,
      fun _ => ⟨rfl, rfl⟩⟩

/-- A successfully executed instruction keeps the program, strictly advances
`ip` (by 2 exactly when the opcode is `Push`, else by 1), and keeps `ip`
within the program. -/
theorem VM.run_instruction_ok_anatomy (vm v : VM) (h : vm.run_instruction = .ok v) :
    ∃ b, vm.program.get? vm.ip = some b ∧ 1 ≤ b ∧ b ≤ 9 ∧
      v.program = vm.program ∧
      (b = 1 → v.ip = vm.ip + 2 ∧ vm.ip + 1 < vm.program.length) ∧
      (b ≠ 1 → v.ip = vm.ip + 1) ∧
      vm.ip < vm.program.length ∧ v.ip ≤ vm.program.length := by
  unfold VM.run_instruction at h
  rcases hget : vm.program.get? vm.ip with _ | b <;> rw [hget] at h
  · exact absurd h (by simp)
  · have hlt : vm.ip < vm.program.length := by
      by_contra hc
      rw [List.get?_eq_none.mpr (Nat.le_of_not_lt hc)] at hget
      exact Option.noConfusion hget
    obtain ⟨h1, h9, hp, hpush, hnot⟩ :=
      VM.dispatch_ok_anatomy { vm with ip := vm.ip + 1 } v b h
    dsimp only at hp hpush hnot
    refine ⟨b, rfl, h1, h9, hp, ?_, ?_, hlt, ?_⟩
    · intro hb
      obtain ⟨hip, hl⟩ := hpush hb
      exact ⟨by omega, hl⟩
    · intro hb
      exact hnot hb
    · by_cases hb : b = 1
      · obtain ⟨hip, hl⟩ := hpush hb
        omega
      · have := hnot hb
        omega

/-- A faulting instruction keeps the program and the output; the stack at the
fault is the pre-instruction stack minus the pops already performed (at most
one). Given the fetched opcode byte: an arithmetic or swap byte on a depth-1
stack leaves the stack empty at the fault; an out-of-range byte is precisely
the illegal-opcode fault (stack untouched, `ip` already advanced past the
opcode); an in-range byte never faults with illegal-opcode; bytes
`0x02..0x09` only underflow. -/
theorem VM.run_instruction_fault_anatomy (vm v : VM) (f : Fault)
    (h : vm.run_instruction = .fault f v) :
    v.program = vm.program ∧ v.output = vm.output ∧
      (∃ k, k ≤ 1 ∧ v.stack = vm.stack.drop k) ∧
      (∀ b, vm.program.get? vm.ip = some b →
        (((b = 2 ∨ b = 3 ∨ b = 4 ∨ b = 8) → vm.stack.length ≤ 1 → v.stack = []) ∧
          ((b = 0 ∨ 10 ≤ b) →
            f = .illegalOpcode b ∧ v.stack = vm.stack ∧ v.ip = vm.ip + 1) ∧
          (1 ≤ b → b ≤ 9 → ∀ c, f ≠ .illegalOpcode c) ∧
          (2 ≤ b → b ≤ 9 → f = .stackUnderflow))) := by
  unfold VM.run_instruction at h
  rcases hget : vm.program.get? vm.ip with _ | b <;> rw [hget] at h
  · cases h
    refine ⟨rfl, rfl, ⟨0, by omega, by simp⟩, ?_⟩
    intro b hb
    exact absurd hb (by simp)
  · obtain ⟨hp, ho, hip, hk, hdepth1, hpushf, hunder, hill⟩ :=
      VM.dispatch_fault_anatomy { vm with ip := vm.ip + 1 } v b f h
    dsimp only at hp ho hip hk hdepth1 hpushf hunder hill
    refine ⟨hp, ho, hk, ?_⟩
    intro b' hb'
    have hbb : b' = b := (Option.some.inj hb').symm
    subst hbb
    refine ⟨fun hmem hdep => hdepth1 hmem hdep, ?_, ?_, fun h2 h9 => hunder h2 h9⟩
    · intro hout
      obtain ⟨hf, hv⟩ := hill hout
      subst hv
      exact ⟨hf, rfl, rfl⟩
    · intro hb1 hb9 c hfc
      by_cases hb : b' = 1
      · obtain ⟨hf, _, _⟩ := hpushf hb
        rw [hf] at hfc
        exact Fault.noConfusion hfc
      · have hf := hunder (by omega) hb9
        rw [hf] at hfc
        exact Fault.noConfusion hfc

/-- Spending more fuel than the loop needs makes no difference: once the fuel
covers the remaining distance `program.length - ip`, the result is fixed. -/
theorem VM.runFuel_add (k : Nat) : ∀ (fuel : Nat) (vm : VM),
    vm.program.length - vm.ip ≤ fuel →
    VM.runFuel (fuel + k) vm = VM.runFuel fuel vm := by
  intro fuel
  induction fuel with
  | zero =>
    intro vm h
    cases k with
    | zero => rfl
    | succ k' =>
      show VM.runFuel (0 + (k' + 1)) vm = VM.runFuel 0 vm
      rw [Nat.zero_add]
      show (if vm.ip < vm.program.length then _ else StepResult.ok vm) = _
      rw [if_neg (by omega)]
      rfl
  | succ f ih =>
    intro vm h
    have hsum : f + 1 + k = (f + k) + 1 := by omega
    rw [hsum]
    by_cases hlt : vm.ip < vm.program.length
    · rcases hstep : vm.run_instruction with vm2 | ⟨f0, vmf⟩
      · obtain ⟨b, _, _, _, hp, hpush, hnot, _, _⟩ :=
          VM.run_instruction_ok_anatomy vm vm2 hstep
        have hfuel2 : vm2.program.length - vm2.ip ≤ f := by
          have : vm.ip < vm2.ip := by
            by_cases hb : b = 1
            · obtain ⟨e, _⟩ := hpush hb
              omega
            · rw [hnot hb]
              omega
          rw [hp]
          omega
        simp only [VM.runFuel, if_pos hlt, hstep]
        exact ih vm2 hfuel2
      · simp only [VM.runFuel, if_pos hlt, hstep]
    · simp only [VM.runFuel, if_neg hlt]

/-- Any sufficient amount of fuel computes `VM::run`. -/
theorem VM.runFuel_eq_run (g : Nat) (vm : VM)
    (h : vm.program.length - vm.ip ≤ g) : VM.runFuel g vm = vm.run := by
  have hg : g = (vm.program.length - vm.ip) + (g - (vm.program.length - vm.ip)) := by
    omega
  rw [VM.run, hg, VM.runFuel_add (g - (vm.program.length - vm.ip))
    (vm.program.length - vm.ip) vm (le_refl _)]

/-- One successful iteration of the `while` loop of `VM::run`. -/
theorem VM.run_step_ok (vm vm' : VM) (hlt : vm.ip < vm.program.length)
    (h : vm.run_instruction = .ok vm') : vm.run = vm'.run := by
  obtain ⟨b, _, _, _, hp, hpush, hnot, _, _⟩ :=
    VM.run_instruction_ok_anatomy vm vm' h
  rw [VM.run]
  have h1 : vm.program.length - vm.ip = (vm.program.length - vm.ip - 1) + 1 := by
    omega
  rw [h1]
  simp only [VM.runFuel, if_pos hlt, h]
  apply VM.runFuel_eq_run
  have hip : vm.ip < vm'.ip := by
    by_cases hb : b = 1
    · obtain ⟨e, _⟩ := hpush hb
      omega
    · rw [hnot hb]
      omega
  rw [hp]
  omega

/-- A faulting iteration of the `while` loop stops the whole run with that
fault. -/
theorem VM.run_step_fault (vm vmf : VM) (f : Fault)
    (hlt : vm.ip < vm.program.length) (h : vm.run_instruction = .fault f vmf) :
    vm.run = .fault f vmf := by
  rw [VM.run]
  have h1 : vm.program.length - vm.ip = (vm.program.length - vm.ip - 1) + 1 := by
    omega
  rw [h1]
  simp only [VM.runFuel, if_pos hlt, h]

/-- When `ip` has reached the end of the program, `VM::run` halts at once. -/
theorem VM.run_done (vm : VM) (h : ¬ vm.ip < vm.program.length) :
    vm.run = .ok vm := by
  rw [VM.run]
  have h0 : vm.program.length - vm.ip = 0 := by omega
  rw [h0]
  rfl

/-- A non-faulting `VM::run` from a state with `ip` within bounds halts with
`ip` equal to the program length, the program unchanged. -/
theorem VM.run_ok_end : ∀ (fuel : Nat) (vm vmEnd : VM),
    vm.program.length - vm.ip ≤ fuel → vm.ip ≤ vm.program.length →
    VM.runFuel fuel vm = .ok vmEnd →
    vmEnd.ip = vmEnd.program.length ∧ vmEnd.program = vm.program := by
  intro fuel
  induction fuel with
  | zero =>
    intro vm vmEnd h hle hrun
    cases hrun
    exact ⟨by omega, rfl⟩
  | succ f ih =>
    intro vm vmEnd h hle hrun
    by_cases hlt : vm.ip < vm.program.length
    · rw [show VM.runFuel (f + 1) vm =
          (if vm.ip < vm.program.length then
            match vm.run_instruction with
            | .ok vm2 => VM.runFuel f vm2
            | .fault f0 vmf => .fault f0 vmf
          else .ok vm) from rfl, if_pos hlt] at hrun
      rcases hstep : vm.run_instruction with vm2 | ⟨f0, vmf⟩ <;> rw [hstep] at hrun
      · obtain ⟨b, _, _, _, hp, hpush, hnot, _, hle2⟩ :=
          VM.run_instruction_ok_anatomy vm vm2 hstep
        have hip2 : vm.ip < vm2.ip := by
          by_cases hb : b = 1
          · obtain ⟨e, _⟩ := hpush hb
            omega
          · rw [hnot hb]
            omega
        obtain ⟨he, hpe⟩ := ih vm2 vmEnd (by rw [hp]; omega) (by rw [hp]; omega) hrun
        exact ⟨he, by rw [hpe, hp]⟩
      · exact absurd hrun (by simp)
    · rw [show VM.runFuel (f + 1) vm =
          (if vm.ip < vm.program.length then
            match vm.run_instruction with
            | .ok vm2 => VM.runFuel f vm2
            | .fault f0 vmf => .fault f0 vmf
          else .ok vm) from rfl, if_neg hlt] at hrun
      cases hrun
      exact ⟨by omega, rfl⟩

/-- Reading the head of the remaining program through `drop`. -/
theorem get?_of_drop_cons (l : List Nat) (n x : Nat) (t : List Nat)
    (h : l.drop n = x :: t) : l.get? n = some x := by
  have := List.get?_drop l n 0
  rw [h] at this
  rw [Nat.add_zero] at this
  exact this.symm

/-- Reading the second byte of the remaining program through `drop`. -/
theorem get?_succ_of_drop_cons (l : List Nat) (n x y : Nat) (t : List Nat)
    (h : l.drop n = x :: y :: t) : l.get? (n + 1) = some y := by
  have := List.get?_drop l n 1
  rw [h] at this
  exact this.symm

/-- Executing a `Push` whose two encoded bytes head the remaining program
always succeeds, consuming both bytes and pushing the operand. -/
theorem VM.run_instruction_push_step (vm : VM) (x : Nat) (tail : List Nat)
    (hdrop : vm.program.drop vm.ip = 1 :: x :: tail) :
    ∃ v, vm.run_instruction = .ok v ∧ v.program = vm.program ∧
      v.program.drop v.ip = tail ∧ v.stack = x :: vm.stack := by
  have hget1 : vm.program.get? vm.ip = some 1 := get?_of_drop_cons _ _ _ _ hdrop
  have hget2 : vm.program.get? (vm.ip + 1) = some x :=
    get?_succ_of_drop_cons _ _ _ _ _ hdrop
  refine ⟨{ vm with ip := vm.ip + 1 + 1, stack := x :: vm.stack }, ?_, rfl, ?_, rfl⟩
  · unfold VM.run_instruction
    rw [hget1]
    show VM.push { vm with ip := vm.ip + 1 } = _
    unfold VM.push
    dsimp only
    rw [hget2]
  · dsimp only
    rw [← List.drop_drop, ← List.drop_drop, hdrop]
    rfl

/-- Executing a one-byte instruction (opcode in `0x02..0x09`) heading the
remaining program either succeeds, consuming that byte, or underflows. -/
theorem VM.run_instruction_nonpush_step (vm : VM) (c : Nat) (tail : List Nat)
    (h2 : 2 ≤ c) (h9 : c ≤ 9)
    (hdrop : vm.program.drop vm.ip = c :: tail) :
    (∃ v, vm.run_instruction = .ok v ∧ v.program = vm.program ∧
      v.program.drop v.ip = tail) ∨
    (∃ v, vm.run_instruction = .fault .stackUnderflow v) := by
  have hget1 : vm.program.get? vm.ip = some c := get?_of_drop_cons _ _ _ _ hdrop
  have hri : vm.run_instruction = VM.dispatch { vm with ip := vm.ip + 1 } c := by
    unfold VM.run_instruction
    rw [hget1]
  rcases hres : VM.dispatch { vm with ip := vm.ip + 1 } c with v | ⟨f0, v⟩
  · left
    obtain ⟨_, _, hp, _, hnot⟩ := VM.dispatch_ok_anatomy _ v c hres
    dsimp only at hp hnot
    have hip := hnot (by omega)
    refine ⟨v, by rw [hri, hres], hp, ?_⟩
    rw [hp, hip, ← List.drop_drop, hdrop]
    rfl
  · right
    obtain ⟨_, _, _, _, _, _, hunder, _⟩ := VM.dispatch_fault_anatomy _ v c f0 hres
    rw [hunder h2 h9] at hres
    exact ⟨v, by rw [hri, hres]⟩

/-- The run-level safety invariant: while the remaining program (from `ip` on)
is a concatenation of instruction encodings, the only fault the loop can ever
raise is a stack underflow — never an illegal opcode, never a truncated
`Push`. -/
theorem VM.runFuel_wf : ∀ (fuel : Nat) (vm : VM) (ops : List Op),
    vm.program.drop vm.ip = ops.flatMap Op.to_bytecode →
    ∀ f v, VM.runFuel fuel vm = .fault f v → f = .stackUnderflow := by
  intro fuel
  induction fuel with
  | zero =>
    intro vm ops hdrop f v h
    exact absurd h (by simp [VM.runFuel])
  | succ n ih =>
    intro vm ops hdrop f v h
    by_cases hlt : vm.ip < vm.program.length
    · rcases ops with _ | ⟨op, rest⟩
      · rw [List.flatMap_nil] at hdrop
        have hlen := List.drop_eq_nil_iff.mp hdrop
        omega
      · rw [List.flatMap_cons] at hdrop
        have hstep :
            (∃ v2, vm.run_instruction = .ok v2 ∧ v2.program = vm.program ∧
              v2.program.drop v2.ip = rest.flatMap Op.to_bytecode) ∨
            (∃ v2, vm.run_instruction = .fault .stackUnderflow v2) := by
          rcases op with x | _ | _ | _ | _ | _ | _ | _ | _
          · obtain ⟨v2, hs, hp, hd, _⟩ :=
              VM.run_instruction_push_step vm x (rest.flatMap Op.to_bytecode)
                (by simpa [Op.to_bytecode, Op.opcode] using hdrop)
            exact Or.inl ⟨v2, hs, hp, hd⟩
          · exact VM.run_instruction_nonpush_step vm 2 _ (by omega) (by omega)
              (by simpa [Op.to_bytecode, Op.opcode] using hdrop)
          · exact VM.run_instruction_nonpush_step vm 3 _ (by omega) (by omega)
              (by simpa [Op.to_bytecode, Op.opcode] using hdrop)
          · exact VM.run_instruction_nonpush_step vm 4 _ (by omega) (by omega)
              (by simpa [Op.to_bytecode, Op.opcode] using hdrop)
          · exact VM.run_instruction_nonpush_step vm 5 _ (by omega) (by omega)
              (by simpa [Op.to_bytecode, Op.opcode] using hdrop)
          · exact VM.run_instruction_nonpush_step vm 6 _ (by omega) (by omega)
              (by simpa [Op.to_bytecode, Op.opcode] using hdrop)
          · exact VM.run_instruction_nonpush_step vm 7 _ (by omega) (by omega)
              (by simpa [Op.to_bytecode, Op.opcode] using hdrop)
          · exact VM.run_instruction_nonpush_step vm 8 _ (by omega) (by omega)
              (by simpa [Op.to_bytecode, Op.opcode] using hdrop)
          · exact VM.run_instruction_nonpush_step vm 9 _ (by omega) (by omega)
              (by simpa [Op.to_bytecode, Op.opcode] using hdrop)
        rcases hstep with ⟨v2, hs, hp, hd⟩ | ⟨v2, hs⟩
        · simp only [VM.runFuel, if_pos hlt, hs] at h
          exact ih v2 rest hd f v h
        · simp only [VM.runFuel, if_pos hlt, hs] at h
          cases h
          rfl
    · simp only [VM.runFuel, if_neg hlt] at h
      exact absurd h (by simp)

/-- A successfully assembled line is either empty (a blank line) or the
encoding of the single operation the line parses to. -/
theorem assemble_line_ok_shape (l : List Char) (bs : List Nat)
    (h : assemble_line l = some bs) :
    bs = [] ∨ ∃ op, Op.from_parts (split_whitespace l) = some op ∧
      bs = op.to_bytecode := by
  unfold assemble_line at h
  by_cases hp : (split_whitespace l).isEmpty
  · rw [if_pos hp] at h
    cases h
    exact Or.inl rfl
  · rw [if_neg hp] at h
    rcases hop : Op.from_parts (split_whitespace l) with _ | op <;> rw [hop] at h
    · exact absurd h (by simp)
    · cases h
      exact Or.inr ⟨op, rfl, rfl⟩

/-- A successfully assembled program is a concatenation of instruction
encodings. -/
theorem assembleLines_encodes : ∀ (ls : List (List Char)) (bs : List Nat),
    assembleLines ls = some bs → ∃ ops : List Op, bs = ops.flatMap Op.to_bytecode := by
  intro ls
  induction ls with
  | nil =>
    intro bs h
    cases h
    exact ⟨[], rfl⟩
  | cons l ls ih =>
    intro bs h
    unfold assembleLines at h
    rcases hl : assemble_line l with _ | bs0 <;> rw [hl] at h
    · exact absurd h (by simp)
    · rcases hrest : assembleLines ls with _ | bs1 <;> rw [hrest] at h
      · exact absurd h (by simp)
      · have hb : bs = bs0 ++ bs1 := by
          cases h
          rfl
        obtain ⟨ops1, hops1⟩ := ih bs1 hrest
        rcases assemble_line_ok_shape l bs0 hl with h0 | ⟨op, _, h0⟩
        · exact ⟨ops1, by rw [hb, h0, hops1]; rfl⟩
        · exact ⟨op :: ops1, by rw [hb, h0, hops1, List.flatMap_cons]⟩

/-- Assembly fails exactly when some line fails. -/
theorem assembleLines_none_iff : ∀ (ls : List (List Char)),
    assembleLines ls = none ↔ ∃ l, l ∈ ls ∧ assemble_line l = none := by
  intro ls
  induction ls with
  | nil => simp [assembleLines]
  | cons l ls ih =>
    constructor
    · intro h
      unfold assembleLines at h
      rcases hl : assemble_line l with _ | bs0 <;> rw [hl] at h
      · exact ⟨l, List.mem_cons_self l ls, hl⟩
      · rcases hrest : assembleLines ls with _ | bs1 <;> rw [hrest] at h
        · obtain ⟨l0, hmem, hnone⟩ := ih.mp hrest
          exact ⟨l0, List.mem_cons_of_mem l hmem, hnone⟩
        · exact absurd h (by simp)
    · intro ⟨l0, hmem, hnone⟩
      unfold assembleLines
      rcases List.mem_cons.mp hmem with rfl | hmem0
      · rw [hnone]
      · rcases hl : assemble_line l with _ | bs0
        · rfl
        · rw [ih.mpr ⟨l0, hmem0, hnone⟩]
          rfl

/-- A line fails to assemble exactly when it has tokens and they parse to no
operation. -/
theorem assemble_line_none_iff (l : List Char) :
    assemble_line l = none ↔
      split_whitespace l ≠ [] ∧ Op.from_parts (split_whitespace l) = none := by
  unfold assemble_line
  by_cases hp : (split_whitespace l).isEmpty
  · rw [if_pos hp]
    simp [List.isEmpty_iff.mp hp]
  · rw [if_neg hp]
    rcases hop : Op.from_parts (split_whitespace l) with _ | op
    · simp only [hop, Option.map_none', true_iff, ne_eq, iff_true, and_true]
      intro hc
      rw [hc] at hp
      exact hp rfl
    · simp [hop]

/-- Token-free lines assemble to nothing. -/
theorem assembleLines_blank : ∀ (ls : List (List Char)),
    (∀ l, l ∈ ls → split_whitespace l = []) → assembleLines ls = some [] := by
  intro ls
  induction ls with
  | nil => intro _; rfl
  | cons l ls ih =>
    intro h
    have hl : assemble_line l = some [] := by
      unfold assemble_line
      rw [if_pos (by simp [h l (List.mem_cons_self l ls)])]
    unfold assembleLines
    rw [hl, ih (fun l0 hm => h l0 (List.mem_cons_of_mem l hm))]
    rfl

/-- C1 counterexample: from a fresh VM on program `[PUSH 7, ADD]` (bytes
`[0x01, 0x07, 0x02]`), the `ADD` faults with stack underflow, but the stack at
the fault is empty — not `[7]`, the stack as it was immediately before the
`ADD` began. The first `pop` of the failing instruction is observable at the
fault, refuting the claim that a faulting instruction has no observable
partial mutation. -/
theorem C1_fault_counterexample :
    (VM.new [0x01, 0x07, 0x02]).run =
      .fault .stackUnderflow ⟨[], 3, [0x01, 0x07, 0x02], []⟩ ∧
    ([] : List Nat) ≠ [7] := by
  constructor
  · decide
  · decide

/-- C1 (amended): when an instruction faults, execution stops with no further
mutation, the program and output are untouched, and the stack at the fault is
the pre-instruction stack with the pops already performed by the failing
instruction removed (at most one); in particular Add, Sub, Mul or Swap on a
stack of depth exactly 1 fault with the stack left empty — the single element
was consumed, not preserved. -/
theorem C1_fault_stack_amended (vm v : VM) (f : Fault)
    (h : vm.run_instruction = .fault f v) :
    v.program = vm.program ∧ v.output = vm.output ∧
      (∃ k, k ≤ 1 ∧ v.stack = vm.stack.drop k) ∧
      (∀ b, vm.program.get? vm.ip = some b → (b = 2 ∨ b = 3 ∨ b = 4 ∨ b = 8) →
        vm.stack.length = 1 → v.stack = []) := by
  obtain ⟨hp, ho, hk, hall⟩ := VM.run_instruction_fault_anatomy vm v f h
  refine ⟨hp, ho, hk, ?_⟩
  intro b hb hmem hdep
  exact (hall b hb).1 hmem (by omega)

/-- C1 witness: the amended statement applied to the depth-1 `ADD` fault. -/
theorem C1_fault_stack_amended_witness :
    (⟨[7], 2, [0x01, 0x07, 0x02], []⟩ : VM).run_instruction =
      .fault .stackUnderflow ⟨[], 3, [0x01, 0x07, 0x02], []⟩ ∧
    (⟨[], 3, [0x01, 0x07, 0x02], []⟩ : VM).stack = [] := by
  have hstep : (⟨[7], 2, [0x01, 0x07, 0x02], []⟩ : VM).run_instruction =
      .fault .stackUnderflow ⟨[], 3, [0x01, 0x07, 0x02], []⟩ := by decide
  exact ⟨hstep,
    (C1_fault_stack_amended _ _ _ hstep).2.2.2 2 (by decide) (Or.inl rfl) (by decide)⟩

/-- C2: assembling `"PUSH 5\nPRINT_TOP\nPUSH 10\nADD\nPRINT"` yields exactly
`[0x01, 0x05, 0x06, 0x01, 0x0A, 0x02, 0x05]`, and a fresh VM on those bytes
prints 5 then 15 (in that order) and halts with `ip` at the program end and an
empty stack. -/
theorem C2_concrete_scenario :
    assemble "PUSH 5\nPRINT_TOP\nPUSH 10\nADD\nPRINT" =
      some [0x01, 0x05, 0x06, 0x01, 0x0A, 0x02, 0x05] ∧
    (VM.new [0x01, 0x05, 0x06, 0x01, 0x0A, 0x02, 0x05]).run =
      .ok ⟨[], 7, [0x01, 0x05, 0x06, 0x01, 0x0A, 0x02, 0x05], [5, 15]⟩ := by
  constructor
  · decide
  · decide

/-- C4: the opcode table is exactly Push=0x01, Add=0x02, Sub=0x03, Mul=0x04,
Print=0x05, PrintTop=0x06, Dup=0x07, Swap=0x08, Drop=0x09; `Push v` encodes as
the two bytes `[0x01, v]` and every other operation as the single byte
`[opcode]`; the opcode position (head) of every encoding carries the
operation's opcode, which is never 0x00 nor ≥ 0x0A. -/
theorem C4_opcode_table (v : Nat) (op : Op) :
    (Op.push v).opcode = 0x01 ∧ Op.add.opcode = 0x02 ∧ Op.sub.opcode = 0x03 ∧
      Op.mul.opcode = 0x04 ∧ Op.print.opcode = 0x05 ∧
      Op.printTop.opcode = 0x06 ∧ Op.dup.opcode = 0x07 ∧
      Op.swap.opcode = 0x08 ∧ Op.dropOp.opcode = 0x09 ∧
      (Op.push v).to_bytecode = [0x01, v] ∧
      Op.add.to_bytecode = [0x02] ∧ Op.sub.to_bytecode = [0x03] ∧
      Op.mul.to_bytecode = [0x04] ∧ Op.print.to_bytecode = [0x05] ∧
      Op.printTop.to_bytecode = [0x06] ∧ Op.dup.to_bytecode = [0x07] ∧
      Op.swap.to_bytecode = [0x08] ∧ Op.dropOp.to_bytecode = [0x09] ∧
      op.to_bytecode.head? = some op.opcode ∧ 1 ≤ op.opcode ∧ op.opcode ≤ 9 := by
  refine ⟨rfl, rfl, rfl, rfl, rfl, rfl, rfl, rfl, rfl, rfl, rfl, rfl, rfl, rfl,
    rfl, rfl, rfl, rfl, ?_, ?_, ?_⟩ <;> cases op <;>
    simp [Op.opcode, Op.to_bytecode]

/-- C5: a fetched opcode byte of 0x00 or ≥ 0x0A faults with exactly that
illegal-opcode error, the stack and output untouched (`ip` has advanced past
the opcode, as in the source); a fetched byte in 0x01..0x09 never faults with
an illegal-opcode error; every byte in 0x01..0x09 is the opcode of an
operation, and the opcode map is injective up to the `Push` operand. -/
theorem C5_illegal_opcode_dispatch :
    (∀ (vm : VM) (b : Nat), vm.program.get? vm.ip = some b → (b = 0 ∨ 10 ≤ b) →
      vm.run_instruction = .fault (.illegalOpcode b) { vm with ip := vm.ip + 1 }) ∧
    (∀ (vm v : VM) (b : Nat) (f : Fault), vm.program.get? vm.ip = some b →
      1 ≤ b → b ≤ 9 → vm.run_instruction = .fault f v →
      ∀ c, f ≠ .illegalOpcode c) ∧
    (∀ b : Nat, 1 ≤ b → b ≤ 9 → ∃ op : Op, Op.opcode op = b) ∧
    (∀ op op' : Op, op.opcode = op'.opcode →
      op = op' ∨ ∃ v w, op = .push v ∧ op' = .push w) := by
  refine ⟨?_, ?_, ?_, ?_⟩
  · intro vm b hget hout
    unfold VM.run_instruction
    rw [hget]
    exact VM.dispatch_out_of_range _ b hout
  · intro vm v b f hget h1 h9 hf c
    obtain ⟨_, _, _, hall⟩ := VM.run_instruction_fault_anatomy vm v f hf
    exact (hall b hget).2.2.1 h1 h9 c
  · intro b h1 h9
    interval_cases b
    · exact ⟨.push 0, rfl⟩
    · exact ⟨.add, rfl⟩
    · exact ⟨.sub, rfl⟩
    · exact ⟨.mul, rfl⟩
    · exact ⟨.print, rfl⟩
    · exact ⟨.printTop, rfl⟩
    · exact ⟨.dup, rfl⟩
    · exact ⟨.swap, rfl⟩
    · exact ⟨.dropOp, rfl⟩
  · intro op op' h
    cases op <;> cases op' <;>
      first
        | exact Or.inr ⟨_, _, rfl, rfl⟩
        | exact Or.inl rfl
        | exact absurd h (by simp [Op.opcode])

/-- C5 witness: byte 0x0A at the instruction pointer faults with
illegal-opcode 0x0A, leaving the stack untouched. -/
theorem C5_illegal_opcode_dispatch_witness :
    (⟨[], 0, [0x0A], []⟩ : VM).program.get? 0 = some 0x0A ∧
    (⟨[], 0, [0x0A], []⟩ : VM).run_instruction =
      .fault (.illegalOpcode 0x0A) ⟨[], 1, [0x0A], []⟩ := by
  refine ⟨by decide, ?_⟩
  exact C5_illegal_opcode_dispatch.1 ⟨[], 0, [0x0A], []⟩ 0x0A (by decide)
    (Or.inr (by omega))

/-- C3: with b on top of a, each of Add, Sub, Mul pops b, then a, and pushes
the integer value of `a op b` reduced modulo 256 (unsigned 8-bit wraparound),
without error and without touching the rest of the stack, `ip`, program or
output. -/
theorem C3_arithmetic_wraparound (a b : Nat) (rest : List Nat) (ip : Nat)
    (prog out : List Nat) (ha : a < 256) (hb : b < 256) :
    (⟨b :: a :: rest, ip, prog, out⟩ : VM).add =
      .ok ⟨(((a : ℤ) + b) % 256).toNat :: rest, ip, prog, out⟩ ∧
    (⟨b :: a :: rest, ip, prog, out⟩ : VM).sub =
      .ok ⟨(((a : ℤ) - b) % 256).toNat :: rest, ip, prog, out⟩ ∧
    (⟨b :: a :: rest, ip, prog, out⟩ : VM).mul =
      .ok ⟨(((a : ℤ) * b) % 256).toNat :: rest, ip, prog, out⟩ := by
  refine ⟨?_, ?_, ?_⟩
  · rw [show (((a : ℤ) + b) % 256).toNat = (a + b) % 256 from by omega]
    rfl
  · rw [show (((a : ℤ) - b) % 256).toNat = (a + 256 - b) % 256 from by omega]
    rfl
  · have hcast : ((a : ℤ) * b) = ((a * b : Nat) : ℤ) := by push_cast; ring
    rw [hcast, show (((a * b : Nat) : ℤ) % 256).toNat = (a * b) % 256 from by
      generalize (a * b : Nat) = m; omega]
    rfl

/-- C3 witness: `3 - 5` wraps to 254 and `250 + 10` wraps to 4. -/
theorem C3_arithmetic_wraparound_witness :
    (3 : Nat) < 256 ∧ (5 : Nat) < 256 ∧
    (⟨[5, 3], 0, [], []⟩ : VM).sub = .ok ⟨[254], 0, [], []⟩ ∧
    (⟨[10, 250], 0, [], []⟩ : VM).add = .ok ⟨[4], 0, [], []⟩ := by
  refine ⟨by decide, by decide, ?_, ?_⟩
  · exact ((C3_arithmetic_wraparound 3 5 [] 0 [] [] (by decide)
      (by decide)).2.1).trans (by decide)
  · exact ((C3_arithmetic_wraparound 250 10 [] 0 [] [] (by decide)
      (by decide)).1).trans (by decide)

/-- C6: translation fails exactly when some line has tokens that match none of
the nine mnemonic forms (a `PUSH` operand must parse as an integer in
`[0, 255]`); the one-token line `"PUSH"` is such a translation error, detected
by `from_parts` before any execution, and when assembly fails no bytecode is
returned (the result is `none`, not a partial buffer). -/
theorem C6_translation_errors :
    Op.from_parts ["PUSH"] = none ∧
    assemble "PUSH" = none ∧
    (∀ v : String, Op.from_parts ["PUSH", v] = (parseU8 v).map Op.push) ∧
    parseU8 "255" = some 255 ∧ parseU8 "256" = none ∧ parseU8 "-1" = none ∧
    parseU8 "abc" = none ∧ parseU8 "" = none ∧
    (∀ src : String, assemble src = none ↔
      ∃ l, l ∈ rustLines src.toList ∧ split_whitespace l ≠ [] ∧
        Op.from_parts (split_whitespace l) = none) := by
  refine ⟨by decide, by decide, ?_, by decide, by decide, by decide, by decide,
    by decide, ?_⟩
  · intro v
    rfl
  · intro src
    unfold assemble
    rw [assembleLines_none_iff]
    constructor
    · intro ⟨l, hm, hn⟩
      obtain ⟨h1, h2⟩ := (assemble_line_none_iff l).mp hn
      exact ⟨l, hm, h1, h2⟩
    · intro ⟨l, hm, h1, h2⟩
      exact ⟨l, hm, (assemble_line_none_iff l).mpr ⟨h1, h2⟩⟩

/-- C6 witness: the missing-operand line is rejected by translation. -/
theorem C6_translation_errors_witness : assemble "PUSH" = none :=
  C6_translation_errors.2.1

/-- C7: for all 8-bit a and b, from any starting stack (and any pending
output), running `PUSH a; PUSH b; ADD; PUSH b; SUB` halts with the stack
`a :: s` — top equal to a, rest untouched. -/
theorem C7_add_sub_cancel (a b : Nat) (s out : List Nat)
    (ha : a < 256) (hb : b < 256) :
    (⟨s, 0, [1, a, 1, b, 2, 1, b, 3], out⟩ : VM).run =
      .ok ⟨a :: s, 8, [1, a, 1, b, 2, 1, b, 3], out⟩ := by
  have harith : ((a + b) % 256 + 256 - b) % 256 = a := by omega
  have h1 : (⟨s, 0, [1, a, 1, b, 2, 1, b, 3], out⟩ : VM).run =
      (⟨a :: s, 2, [1, a, 1, b, 2, 1, b, 3], out⟩ : VM).run :=
    VM.run_step_ok _ _ (by simp) rfl
  have h2 : (⟨a :: s, 2, [1, a, 1, b, 2, 1, b, 3], out⟩ : VM).run =
      (⟨b :: a :: s, 4, [1, a, 1, b, 2, 1, b, 3], out⟩ : VM).run :=
    VM.run_step_ok _ _ (by simp) rfl
  have h3 : (⟨b :: a :: s, 4, [1, a, 1, b, 2, 1, b, 3], out⟩ : VM).run =
      (⟨((a + b) % 256) :: s, 5, [1, a, 1, b, 2, 1, b, 3], out⟩ : VM).run :=
    VM.run_step_ok _ _ (by simp) rfl
  have h4 : (⟨((a + b) % 256) :: s, 5, [1, a, 1, b, 2, 1, b, 3], out⟩ : VM).run =
      (⟨b :: ((a + b) % 256) :: s, 7, [1, a, 1, b, 2, 1, b, 3], out⟩ : VM).run :=
    VM.run_step_ok _ _ (by simp) rfl
  have h5 : (⟨b :: ((a + b) % 256) :: s, 7, [1, a, 1, b, 2, 1, b, 3], out⟩ : VM).run =
      (⟨(((a + b) % 256 + 256 - b) % 256) :: s, 8,
        [1, a, 1, b, 2, 1, b, 3], out⟩ : VM).run :=
    VM.run_step_ok _ _ (by simp) rfl
  have h6 : (⟨(((a + b) % 256 + 256 - b) % 256) :: s, 8,
      [1, a, 1, b, 2, 1, b, 3], out⟩ : VM).run =
      .ok ⟨(((a + b) % 256 + 256 - b) % 256) :: s, 8,
        [1, a, 1, b, 2, 1, b, 3], out⟩ :=
    VM.run_done _ (by simp)
  rw [h1, h2, h3, h4, h5, h6, harith]

/-- C7 witness: a = 3, b = 5 on starting stack [9]. -/
theorem C7_add_sub_cancel_witness :
    (3 : Nat) < 256 ∧ (5 : Nat) < 256 ∧
    (⟨[9], 0, [1, 3, 1, 5, 2, 1, 5, 3], []⟩ : VM).run =
      .ok ⟨[3, 9], 8, [1, 3, 1, 5, 2, 1, 5, 3], []⟩ :=
  ⟨by decide, by decide, C7_add_sub_cancel 3 5 [9] [] (by decide) (by decide)⟩

/-- C8: a source of only token-free (blank or whitespace-only) lines —
including the empty string — assembles without error to the empty byte
sequence, and a VM created on that output halts at once: its run returns the
unchanged initial state (stack empty) and no loop iteration is even
possible. -/
theorem C8_blank_source (src : String)
    (h : ∀ l, l ∈ rustLines src.toList → split_whitespace l = []) :
    assemble src = some [] ∧
    (VM.new []).run = .ok (VM.new []) ∧
    (VM.new []).stack = [] ∧
    ∀ v : VM, ¬ StepOk (VM.new []) v := by
  refine ⟨assembleLines_blank _ h, by decide, rfl, ?_⟩
  intro v hstep
  obtain ⟨hlt, _⟩ := hstep
  simp [VM.new] at hlt

/-- C8 witness: a source of one space line, one tab line and the empty
string. -/
theorem C8_blank_source_witness :
    (∀ l, l ∈ rustLines (" \n\t\n" : String).toList → split_whitespace l = []) ∧
    assemble " \n\t\n" = some [] ∧ assemble "" = some [] :=
  ⟨by decide, (C8_blank_source " \n\t\n" (by decide)).1,
    (C8_blank_source "" (by decide)).1⟩

/-- C9: whatever source the assembler accepts, the resulting bytecode can
never drive the VM into the illegal-opcode branch or the truncated-`Push`
out-of-bounds read: the only execution fault reachable from a fresh VM on
assembler output is stack underflow. -/
theorem C9_assembled_fault_only_underflow (src : String) (prog : List Nat)
    (hasm : assemble src = some prog) (f : Fault) (v : VM)
    (hrun : (VM.new prog).run = .fault f v) : f = .stackUnderflow := by
  obtain ⟨ops, hops⟩ := assembleLines_encodes _ _ hasm
  exact VM.runFuel_wf _ (VM.new prog) ops
    (by rw [show (VM.new prog).program.drop (VM.new prog).ip = prog.drop 0 from rfl,
      List.drop_zero]; exact hops) f v hrun

/-- C9 witness: `"ADD"` assembles to `[0x02]`, whose run faults — with a stack
underflow. -/
theorem C9_assembled_fault_only_underflow_witness :
    assemble "ADD" = some [0x02] ∧
    (VM.new [0x02]).run = .fault .stackUnderflow ⟨[], 1, [0x02], []⟩ ∧
    Fault.stackUnderflow = Fault.stackUnderflow := by
  refine ⟨by decide, by decide, ?_⟩
  exact C9_assembled_fault_only_underflow "ADD" [0x02] (by decide)
    .stackUnderflow ⟨[], 1, [0x02], []⟩ (by decide)

/-- C10: every state reachable from a fresh VM by completed loop iterations
keeps `ip` between 0 and the program length (with the program unchanged); each
completed iteration advances `ip` by exactly 2 on a `Push` opcode and exactly
1 otherwise; and every non-faulting run halts with `ip` equal to the program
length. -/
theorem C10_ip_invariants :
    (∀ (prog : List Nat) (vm : VM),
      Relation.ReflTransGen StepOk (VM.new prog) vm →
      vm.ip ≤ vm.program.length ∧ vm.program = prog) ∧
    (∀ (vm v : VM) (b : Nat), StepOk vm v → vm.program.get? vm.ip = some b →
      v.ip = vm.ip + (if b = 1 then 2 else 1)) ∧
    (∀ (prog : List Nat) (vmEnd : VM), (VM.new prog).run = .ok vmEnd →
      vmEnd.ip = vmEnd.program.length ∧ vmEnd.program = prog) := by
  refine ⟨?_, ?_, ?_⟩
  · intro prog vm h
    induction h with
    | refl => exact ⟨Nat.zero_le _, rfl⟩
    | tail hab hbc ih =>
      obtain ⟨hlt, hok⟩ := hbc
      obtain ⟨bb, _, _, _, hp, _, _, _, hle⟩ :=
        VM.run_instruction_ok_anatomy _ _ hok
      exact ⟨by rw [hp]; exact hle, by rw [hp]; exact ih.2⟩
  · intro vm v b hstep hget
    obtain ⟨hlt, hok⟩ := hstep
    obtain ⟨b', hget', _, _, _, hpush, hnot, _, _⟩ :=
      VM.run_instruction_ok_anatomy _ _ hok
    have hbb : b' = b := by
      rw [hget] at hget'
      exact (Option.some.inj hget').symm
    subst hbb
    by_cases hb : b' = 1
    · rw [if_pos hb]
      exact (hpush hb).1
    · rw [if_neg hb]
      exact hnot hb
  · intro prog vmEnd h
    exact VM.run_ok_end ((VM.new prog).program.length - (VM.new prog).ip)
      (VM.new prog) vmEnd (le_refl _) (Nat.zero_le _) h

/-- C10 witness: `PUSH 7` runs to completion with `ip` at the program end. -/
theorem C10_ip_invariants_witness :
    (VM.new [0x01, 0x07]).run = .ok ⟨[7], 2, [0x01, 0x07], []⟩ ∧
    (⟨[7], 2, [0x01, 0x07], []⟩ : VM).ip =
      (⟨[7], 2, [0x01, 0x07], []⟩ : VM).program.length := by
  refine ⟨by decide, ?_⟩
  exact (C10_ip_invariants.2.2 [0x01, 0x07] ⟨[7], 2, [0x01, 0x07], []⟩
    (by decide)).1
